import Mathlib

/-!
Verification development for the openskills repository synchronization and
publish pipeline.  Strings from the TypeScript source are embedded as
List Char; each definition mirrors one function of the source.
-/

namespace OpenSkills

/-- startsWithL pat s is true when pat is a leading segment of s
(the String.startsWith check used by the source, on char lists). -/
def startsWithL : List Char → List Char → Bool
  | [], _ => true
  | _ :: _, [] => false
  | p :: ps, c :: cs => p = c && startsWithL ps cs

/-- containsSeq pat s mirrors JavaScript String.includes(pat):
true when pat occurs contiguously somewhere in s. -/
def containsSeq (pat : List Char) : List Char → Bool
  | [] => pat.isEmpty
  | c :: cs => startsWithL pat (c :: cs) || containsSeq pat cs

/-- Lower-casing of a char list, mirroring String.toLowerCase on the
ASCII diagnostics the source matches against. -/
def lowerL (s : List Char) : List Char := s.map Char.toLower

/-- replaceC p r s mirrors s.replace(/p/g, r) for a single-character
pattern p: every occurrence of p becomes the segment r. -/
def replaceC (p : Char) (r : List Char) : List Char → List Char
  | [] => []
  | c :: cs => (if c = p then r else [c]) ++ replaceC p r cs

/-- escapeGitPath from the source: escape backslashes first, then double
quotes, remove newlines, remove carriage returns, replace tabs with
spaces, remove null bytes.  The passes are applied in the source's order. -/
def escapeGitPath (s : List Char) : List Char :=
  replaceC '\x00' []
    (replaceC '\t' [' ']
      (replaceC '\r' []
        (replaceC '\n' []
          (replaceC '"' ['\\', '"']
            (replaceC '\\' ['\\', '\\'] s)))))

/-- Per-character effect of the six escapeGitPath passes, used to reason
about the composition. -/
def escChar (c : Char) : List Char :=
  if c = '\\' then ['\\', '\\']
  else if c = '"' then ['\\', '"']
  else if c = '\n' then []
  else if c = '\r' then []
  else if c = '\t' then [' ']
  else if c = '\x00' then []
  else [c]

/-- Character-wise form of the fused escaping passes. -/
def escList : List Char → List Char
  | [] => []
  | c :: cs => escChar c ++ escList cs

theorem replaceC_append (p : Char) (r a b : List Char) :
    replaceC p r (a ++ b) = replaceC p r a ++ replaceC p r b := by
  induction a with
  | nil => simp [replaceC]
  | cons c cs ih => simp [replaceC, ih]

theorem escapeGitPath_eq_escList (s : List Char) :
    escapeGitPath s = escList s := by
  induction s with
  | nil => rfl
  | cons c cs ih =>
    have hsplit : escapeGitPath (c :: cs) = escapeGitPath [c] ++ escapeGitPath cs := by
      show escapeGitPath ([c] ++ cs) = _
      simp only [escapeGitPath, replaceC_append]
    rw [hsplit, ih]
    have hchar : escapeGitPath [c] = escChar c := by
      by_cases h1 : c = '\\'
      · subst h1; rfl
      · by_cases h2 : c = '"'
        · subst h2; rfl
        · by_cases h3 : c = '\n'
          · subst h3; rfl
          · by_cases h4 : c = '\r'
            · subst h4; rfl
            · by_cases h5 : c = '\t'
              · subst h5; rfl
              · by_cases h6 : c = '\x00'
                · subst h6; rfl
                · simp [escapeGitPath, replaceC, escChar, h1, h2, h3, h4, h5, h6]
    rw [hchar]
    rfl

/-- State machine for a double-quoted command argument: scan characters
with a pending-escape flag; an unescaped double quote terminates the
quoting context (result none); otherwise the final pending flag is
returned. -/
def dqConsume : List Char → Bool → Option Bool
  | [], esc => some esc
  | _ :: cs, true => dqConsume cs false
  | c :: cs, false => if c = '"' then none else dqConsume cs (c = '\\')

theorem dqConsume_append (a b : List Char) (e : Bool) :
    dqConsume (a ++ b) e =
      match dqConsume a e with
      | none => none
      | some e2 => dqConsume b e2 := by
  induction a generalizing e with
  | nil => simp [dqConsume]
  | cons c cs ih =>
    cases e with
    | true => simpa [dqConsume] using ih false
    | false =>
      by_cases h : c = '"'
      · simp [dqConsume, h]
      · simp [dqConsume, h, ih]

theorem dqConsume_escChar (c : Char) :
    dqConsume (escChar c) false = some false := by
  by_cases h1 : c = '\\'
  · subst h1; rfl
  · by_cases h2 : c = '"'
    · subst h2; rfl
    · by_cases h3 : c = '\n'
      · subst h3; rfl
      · by_cases h4 : c = '\r'
        · subst h4; rfl
        · by_cases h5 : c = '\t'
          · subst h5; rfl
          · by_cases h6 : c = '\x00'
            · subst h6; rfl
            · have hne : ¬ (c = '\\') := h1
              simp [escChar, h1, h2, h3, h4, h5, h6, dqConsume]

theorem dqConsume_escList (s : List Char) :
    dqConsume (escList s) false = some false := by
  induction s with
  | nil => rfl
  | cons c cs ih =>
    show dqConsume (escChar c ++ escList cs) false = some false
    rw [dqConsume_append, dqConsume_escChar]
    exact ih

theorem escList_no_bad_chars (s : List Char) :
    ∀ c ∈ escList s, c ≠ '\n' ∧ c ≠ '\r' ∧ c ≠ '\x00' ∧ c ≠ '\t' := by
  induction s with
  | nil => intro c hc; cases hc
  | cons a as ih =>
    intro c hc
    have hc2 : c ∈ escChar a ∨ c ∈ escList as := by
      have : c ∈ escChar a ++ escList as := hc
      exact List.mem_append.mp this
    rcases hc2 with h | h
    · by_cases h1 : a = '\\'
      · subst h1; simp [escChar] at h; subst h; decide
      · by_cases h2 : a = '"'
        · subst h2
          simp [escChar] at h
          rcases h with h | h <;> (subst h; decide)
        · by_cases h3 : a = '\n'
          · subst h3; simp [escChar] at h
          · by_cases h4 : a = '\r'
            · subst h4; simp [escChar] at h
            · by_cases h5 : a = '\t'
              · subst h5; simp [escChar] at h; subst h; decide
              · by_cases h6 : a = '\x00'
                · subst h6; simp [escChar] at h
                · simp [escChar, h1, h2, h3, h4, h5, h6] at h
                  subst h
                  exact ⟨h3, h4, h6, h5⟩
    · exact ih c h

/-- C1: for every input containing a double quote, backtick, backslash,
newline, or NUL, the output of escapeGitPath, when scanned as the body of
a double-quoted command argument, never terminates the quoting context
and leaves no pending escape (so the closing quote cannot be consumed);
further the output contains no newline, carriage return, NUL or tab, and
a leading tab becomes a space. -/
theorem escapeGitPath_dq_safe (s : List Char)
    (h : '"' ∈ s ∨ '`' ∈ s ∨ '\\' ∈ s ∨ '\n' ∈ s ∨ '\x00' ∈ s) :
    dqConsume (escapeGitPath s) false = some false ∧
    (∀ c ∈ escapeGitPath s, c ≠ '\n' ∧ c ≠ '\r' ∧ c ≠ '\x00' ∧ c ≠ '\t') ∧
    escapeGitPath ('\t' :: s) = ' ' :: escapeGitPath s := by
  refine ⟨?_, ?_, ?_⟩
  · rw [escapeGitPath_eq_escList]; exact dqConsume_escList s
  · rw [escapeGitPath_eq_escList]; exact escList_no_bad_chars s
  · rw [escapeGitPath_eq_escList, escapeGitPath_eq_escList]
    rfl

theorem escapeGitPath_dq_safe_witness :
    dqConsume (escapeGitPath ['a', '"', 'b']) false = some false ∧
    (∀ c ∈ escapeGitPath ['a', '"', 'b'],
      c ≠ '\n' ∧ c ≠ '\r' ∧ c ≠ '\x00' ∧ c ≠ '\t') ∧
    escapeGitPath ('\t' :: ['a', '"', 'b']) = ' ' :: escapeGitPath ['a', '"', 'b'] :=
  escapeGitPath_dq_safe ['a', '"', 'b'] (Or.inl (by decide))

/-- Character class [a-zA-Z0-9._-] used by the name validators. -/
def isNameChar (c : Char) : Bool :=
  ('a' ≤ c && c ≤ 'z') || ('A' ≤ c && c ≤ 'Z') || ('0' ≤ c && c ≤ '9') ||
  c = '.' || c = '_' || c = '-'

/-- isValidSkillName from the source: the whole string matches
[a-zA-Z0-9._-]+ and has length between 1 and 255. -/
def isValidSkillName (s : List Char) : Bool :=
  s.all isNameChar && decide (0 < s.length) && decide (s.length ≤ 255)

/-- isValidRepoName from the source: rejects any occurrence of "..",
"/" or "\\", then requires [a-zA-Z0-9._-]+ and length 1 to 255. -/
def isValidRepoName (s : List Char) : Bool :=
  if containsSeq ['.', '.'] s || containsSeq ['/'] s || containsSeq ['\\'] s then false
  else s.all isNameChar && decide (0 < s.length) && decide (s.length ≤ 255)

/-- isValidBranchName from the source: the class [a-zA-Z0-9._-] plus
the slash, with length between 1 and 255. -/
def isValidBranchName (s : List Char) : Bool :=
  s.all (fun c => isNameChar c || c = '/') &&
  decide (0 < s.length) && decide (s.length ≤ 255)

/-- isValidGitUrl from the source: requires one of the accepted
protocol heads, forbids a fixed set of dangerous characters, and limits
the length to 2000. -/
def isValidGitUrl (s : List Char) : Bool :=
  (startsWithL "http://".toList s || startsWithL "https://".toList s ||
   startsWithL "git://".toList s || startsWithL "git@".toList s) &&
  !(['`', '$', ';', '&', '|', '<', '>', '\n', '\r'].any (fun c => containsSeq [c] s)) &&
  decide (0 < s.length) && decide (s.length ≤ 2000)

theorem containsSeq_singleton (c : Char) (s : List Char) :
    containsSeq [c] s = true ↔ c ∈ s := by
  induction s with
  | nil => simp [containsSeq, List.isEmpty]
  | cons a as ih =>
    constructor
    · intro h
      rcases Bool.or_eq_true_iff.mp h with h1 | h2
      · have : c = a := by simpa [startsWithL] using h1
        simp [this]
      · exact List.mem_cons_of_mem a (ih.mp h2)
    · intro h
      rcases List.mem_cons.mp h with h1 | h2
      · subst h1
        simp [containsSeq, startsWithL]
      · have := ih.mpr h2
        simp [containsSeq, this]

/-- C4 counterexample: the string ".." consists of 1 to 255 characters
drawn from the allowed class and is accepted by the skill-name validator
but rejected by the repository-name validator, so the two call sites do
not accept the same set of strings. -/
theorem validators_differ_cex :
    isValidSkillName ['.', '.'] = true ∧ isValidRepoName ['.', '.'] = false ∧
    (['.', '.'] : List Char).all isNameChar = true ∧
    0 < (['.', '.'] : List Char).length ∧ (['.', '.'] : List Char).length ≤ 255 := by
  decide

/-- C4 (amended): the skill-name validator accepts exactly the strings
of 1 to 255 characters drawn from [A-Za-z0-9._-]; the repository-name
validator accepts exactly those of them that do not contain ".." as a
substring (the "/" and "\\" rejections are subsumed by the character
class). -/
theorem validators_characterization (s : List Char) :
    (isValidSkillName s = true ↔
      (1 ≤ s.length ∧ s.length ≤ 255 ∧ ∀ c ∈ s, isNameChar c = true)) ∧
    isValidRepoName s = (isValidSkillName s && !containsSeq ['.', '.'] s) := by
  constructor
  · constructor
    · intro h
      have h1 := Bool.and_eq_true_iff.mp h
      have h2 := Bool.and_eq_true_iff.mp h1.1
      refine ⟨of_decide_eq_true h2.2, of_decide_eq_true h1.2, ?_⟩
      intro c hc
      exact List.all_eq_true.mp h2.1 c hc
    · intro ⟨h1, h2, h3⟩
      have ha : s.all isNameChar = true := List.all_eq_true.mpr h3
      have h0 : 0 < s.length := h1
      simp [isValidSkillName, ha, h0, h2]
  · by_cases hdd : containsSeq ['.', '.'] s = true
    · simp [isValidRepoName, hdd]
    · by_cases hsl : containsSeq ['/'] s = true
      · have hmem : '/' ∈ s := (containsSeq_singleton '/' s).mp hsl
        have hbad : s.all isNameChar = false := by
          by_cases h : s.all isNameChar = true
          · exact absurd (List.all_eq_true.mp h '/' hmem) (by decide)
          · simpa using h
        simp [isValidRepoName, isValidSkillName, hdd, hsl, hbad]
      · by_cases hbs : containsSeq ['\\'] s = true
        · have hmem : '\\' ∈ s := (containsSeq_singleton '\\' s).mp hbs
          have hbad : s.all isNameChar = false := by
            by_cases h : s.all isNameChar = true
            · exact absurd (List.all_eq_true.mp h '\\' hmem) (by decide)
            · simpa using h
          simp [isValidRepoName, isValidSkillName, hdd, hsl, hbs, hbad]
        · have hdd2 : containsSeq ['.', '.'] s = false := by simpa using hdd
          have hsl2 : containsSeq ['/'] s = false := by simpa using hsl
          have hbs2 : containsSeq ['\\'] s = false := by simpa using hbs
          simp [isValidRepoName, isValidSkillName, hdd2, hsl2, hbs2]

/-- JSON values as produced by JSON.parse, as far as the configuration
loader inspects them. -/
inductive JsonVal where
  | null : JsonVal
  | jbool : Bool → JsonVal
  | jnum : Int → JsonVal
  | jstr : List Char → JsonVal
  | jarr : List JsonVal → JsonVal
  | jobj : List (List Char × JsonVal) → JsonVal

/-- First-match association lookup among an object's fields. -/
def lookupL : List (List Char × JsonVal) → List Char → Option JsonVal
  | [], _ => none
  | (n, v) :: rest, k => if n = k then some v else lookupL rest k

/-- JavaScript property access config.key: a field of an object, and
undefined (none) on every non-object value. -/
def getField : JsonVal → List Char → Option JsonVal
  | .jobj fs, k => lookupL fs k
  | _, _ => none

/-- JavaScript truthiness of a possibly-undefined value. -/
def jsTruthy : Option JsonVal → Bool
  | none => false
  | some .null => false
  | some (.jbool b) => b
  | some (.jnum n) => !(n == 0)
  | some (.jstr s) => !s.isEmpty
  | some (.jarr _) => true
  | some (.jobj _) => true

/-- Array.isArray on a possibly-undefined value. -/
def isArrayJ : Option JsonVal → Bool
  | some (.jarr _) => true
  | _ => false

def reposKey : List Char := "repositories".toList

/-- loadRepositories from the source.  The input abstracts the state of
the configuration file: none when the file is absent, some none when
reading or JSON.parse throws, some (some v) when it parses to v.  The
code returns [] when the file is absent, returns [] from the catch when
parsing throws, returns [] when config.repositories is falsy or not an
array, and otherwise returns the stored array. -/
def loadRepositories : Option (Option JsonVal) → List JsonVal
  | none => []
  | some none => []
  | some (some config) =>
    let repos := getField config reposKey
    if !jsTruthy repos || !isArrayJ repos then []
    else
      match repos with
      | some (.jarr xs) => xs
      | _ => []

/-- Modelled from the spec sentence for C10: total loader that yields
the stored array exactly when the repositories field is an array, and
the empty list in every other situation. -/
def loadRepositoriesSpec : Option (Option JsonVal) → List JsonVal
  | some (some config) =>
    match getField config reposKey with
    | some (.jarr xs) => xs
    | _ => []
  | _ => []

/-- C10: loading the remote-directory configuration is total: it returns
the empty list when the file is absent, when it does not parse, or when
the repositories field is missing or not an array, and otherwise returns
exactly the stored repository array. -/
theorem loadRepositories_total (st : Option (Option JsonVal)) :
    loadRepositories st = loadRepositoriesSpec st := by
  match st with
  | none => rfl
  | some none => rfl
  | some (some config) =>
    show (let repos := getField config reposKey
          if !jsTruthy repos || !isArrayJ repos then []
          else match repos with
               | some (.jarr xs) => xs
               | _ => ([] : List JsonVal)) = _
    match h : getField config reposKey with
    | none => simp [loadRepositoriesSpec, jsTruthy, isArrayJ, h]
    | some .null => simp [loadRepositoriesSpec, jsTruthy, isArrayJ, h]
    | some (.jbool b) =>
      cases b <;> simp [loadRepositoriesSpec, jsTruthy, isArrayJ, h]
    | some (.jnum n) =>
      by_cases hn : n = 0 <;> simp [loadRepositoriesSpec, jsTruthy, isArrayJ, h, hn]
    | some (.jstr s) =>
      cases s <;> simp [loadRepositoriesSpec, jsTruthy, isArrayJ, h, List.isEmpty]
    | some (.jarr xs) => simp [loadRepositoriesSpec, jsTruthy, isArrayJ, h]
    | some (.jobj fs) => simp [loadRepositoriesSpec, jsTruthy, isArrayJ, h]

/-- Retry bound of the metadata-removal polling loop. -/
def MAX_RETRY_ATTEMPTS : Nat := 10

/-- Fixed wait interval, in milliseconds, between polling attempts. -/
def FILE_SYSTEM_WAIT_MS : Nat := 300

/-- getDeleteCommand from the source: the platform-appropriate manual
deletion command naming the path. -/
def getDeleteCommand (isWindows : Bool) (path : List Char) : List Char :=
  if isWindows then "Remove-Item -Recurse -Force \"".toList ++ path ++ ['"']
  else "rm -rf \"".toList ++ path ++ ['"']

/-- Abstract filesystem behavior observed by removeGitDirectory: the
initial existence check, per-attempt success of rmSync, the existence
re-check after each attempt's wait, and the final existence re-check in
the failure branch. -/
structure GitRmEnv where
  exists0 : Bool
  rmOk : Nat → Bool
  existsAt : Nat → Bool
  existsFinal : Bool

/-- The attempt loop of removeGitDirectory: at attempt i, try rmSync
(on a throw, wait and continue), wait, re-check existence, and stop
successfully as soon as the path is absent. -/
def removalLoop (env : GitRmEnv) : Nat → Nat → Bool
  | 0, _ => false
  | n + 1, i =>
    if env.rmOk i then
      if env.existsAt i then removalLoop env n (i + 1) else true
    else removalLoop env n (i + 1)

/-- removeGitDirectory from the source: immediately true when the path
does not exist; otherwise run the bounded attempt loop; when it failed
and the path still exists, report the path with the manual deletion
command (second component) and return false. -/
def removeGitDirectory (env : GitRmEnv) : Bool × Bool :=
  if !env.exists0 then (true, false)
  else
    let removed := removalLoop env MAX_RETRY_ATTEMPTS 0
    if !removed && env.existsFinal then (false, true)
    else (removed, false)

theorem removalLoop_iff (env : GitRmEnv) (n i : Nat) :
    removalLoop env n i = true ↔
      ∃ k, k < n ∧ env.rmOk (i + k) = true ∧ env.existsAt (i + k) = false := by
  induction n generalizing i with
  | zero => simp [removalLoop]
  | succ m ih =>
    by_cases hrm : env.rmOk i = true
    · by_cases hex : env.existsAt i = true
      · rw [show removalLoop env (m + 1) i = removalLoop env m (i + 1) by
          simp [removalLoop, hrm, hex]]
        rw [ih (i + 1)]
        constructor
        · intro ⟨k, hk, h1, h2⟩
          exact ⟨k + 1, by omega, by rw [show i + (k + 1) = i + 1 + k by omega]; exact h1,
            by rw [show i + (k + 1) = i + 1 + k by omega]; exact h2⟩
        · intro ⟨k, hk, h1, h2⟩
          match k with
          | 0 => exact absurd hex (by simpa using h2)
          | k + 1 =>
            exact ⟨k, by omega, by rw [show i + 1 + k = i + (k + 1) by omega]; exact h1,
              by rw [show i + 1 + k = i + (k + 1) by omega]; exact h2⟩
      · have hex2 : env.existsAt i = false := by simpa using hex
        rw [show removalLoop env (m + 1) i = true by simp [removalLoop, hrm, hex2]]
        simp only [true_iff]
        exact ⟨0, by omega, by simpa using hrm, by simpa using hex2⟩
    · have hrm2 : env.rmOk i = false := by simpa using hrm
      rw [show removalLoop env (m + 1) i = removalLoop env m (i + 1) by
        simp [removalLoop, hrm2]]
      rw [ih (i + 1)]
      constructor
      · intro ⟨k, hk, h1, h2⟩
        exact ⟨k + 1, by omega, by rw [show i + (k + 1) = i + 1 + k by omega]; exact h1,
          by rw [show i + (k + 1) = i + 1 + k by omega]; exact h2⟩
      · intro ⟨k, hk, h1, h2⟩
        match k with
        | 0 => exact absurd h1 (by simpa using hrm2)
        | k + 1 =>
          exact ⟨k, by omega, by rw [show i + 1 + k = i + (k + 1) by omega]; exact h1,
            by rw [show i + 1 + k = i + (k + 1) by omega]; exact h2⟩

theorem startsWithL_self_append (p b : List Char) :
    startsWithL p (p ++ b) = true := by
  induction p with
  | nil => rfl
  | cons c cs ih => simp [startsWithL, ih]

theorem containsSeq_left (p b : List Char) :
    containsSeq p (p ++ b) = true := by
  cases p with
  | nil =>
    induction b with
    | nil => rfl
    | cons c cs ih => simp [containsSeq, startsWithL]
  | cons x xs =>
    have h := startsWithL_self_append (x :: xs) b
    show containsSeq (x :: xs) (x :: (xs ++ b)) = true
    simp only [containsSeq]
    simp only [List.cons_append] at h
    simp [h]

theorem containsSeq_infix (p a b : List Char) :
    containsSeq p (a ++ p ++ b) = true := by
  induction a with
  | nil => simpa using containsSeq_left p b
  | cons c cs ih =>
    have he : (c :: cs) ++ p ++ b = c :: (cs ++ p ++ b) := by simp
    rw [he]
    simp only [containsSeq, Bool.or_eq_true]
    right
    exact ih

/-- C9: the metadata-removal polling loop is bounded by the fixed
constant 10 with a fixed 300 ms wait; it succeeds exactly when the path
was initially absent or some attempt within the bound saw the path gone
after removal; the manual-deletion report happens exactly on failure
with the path still present; the outcome depends only on the behavior of
the first 10 attempts; and the reported command contains the literal
path for either platform. -/
theorem removeGitDirectory_bounded_polling :
    MAX_RETRY_ATTEMPTS = 10 ∧ FILE_SYSTEM_WAIT_MS = 300 ∧
    (∀ env : GitRmEnv,
      (removeGitDirectory env).1 = true ↔
        (env.exists0 = false ∨
         ∃ k, k < MAX_RETRY_ATTEMPTS ∧ env.rmOk k = true ∧ env.existsAt k = false)) ∧
    (∀ env : GitRmEnv,
      (removeGitDirectory env).2 = true ↔
        ((removeGitDirectory env).1 = false ∧ env.existsFinal = true)) ∧
    (∀ env env' : GitRmEnv, env.exists0 = env'.exists0 →
      env.existsFinal = env'.existsFinal →
      (∀ k, k < MAX_RETRY_ATTEMPTS → env.rmOk k = env'.rmOk k ∧ env.existsAt k = env'.existsAt k) →
      removeGitDirectory env = removeGitDirectory env') ∧
    (∀ (w : Bool) (p : List Char), containsSeq p (getDeleteCommand w p) = true) := by
  have hloop : ∀ env : GitRmEnv,
      removalLoop env MAX_RETRY_ATTEMPTS 0 = true ↔
        ∃ k, k < MAX_RETRY_ATTEMPTS ∧ env.rmOk k = true ∧ env.existsAt k = false := by
    intro env
    have := removalLoop_iff env MAX_RETRY_ATTEMPTS 0
    simpa using this
  have hfst : ∀ env : GitRmEnv, (removeGitDirectory env).1 =
      (if env.exists0 then removalLoop env MAX_RETRY_ATTEMPTS 0 else true) := by
    intro env
    cases h0 : env.exists0 with
    | false => simp [removeGitDirectory, h0]
    | true =>
      cases hr : removalLoop env MAX_RETRY_ATTEMPTS 0 with
      | false => cases hf : env.existsFinal <;> simp [removeGitDirectory, h0, hr, hf]
      | true => simp [removeGitDirectory, h0, hr]
  have hsnd : ∀ env : GitRmEnv, (removeGitDirectory env).2 =
      (env.exists0 && !removalLoop env MAX_RETRY_ATTEMPTS 0 && env.existsFinal) := by
    intro env
    cases h0 : env.exists0 with
    | false => simp [removeGitDirectory, h0]
    | true =>
      cases hr : removalLoop env MAX_RETRY_ATTEMPTS 0 with
      | false => cases hf : env.existsFinal <;> simp [removeGitDirectory, h0, hr, hf]
      | true => simp [removeGitDirectory, h0, hr]
  refine ⟨rfl, rfl, ?_, ?_, ?_, ?_⟩
  · intro env
    rw [hfst env]
    cases h0 : env.exists0 with
    | false => simp [h0]
    | true => simp [h0, hloop env]
  · intro env
    rw [hfst env, hsnd env]
    cases h0 : env.exists0 with
    | false => simp [h0]
    | true =>
      cases hr : removalLoop env MAX_RETRY_ATTEMPTS 0 with
      | false => cases hf : env.existsFinal <;> simp [h0, hr, hf]
      | true => simp [h0, hr]
  · intro env env' he hf hag
    have hl : removalLoop env MAX_RETRY_ATTEMPTS 0 = removalLoop env' MAX_RETRY_ATTEMPTS 0 := by
      cases h : removalLoop env' MAX_RETRY_ATTEMPTS 0 with
      | true =>
        obtain ⟨k, hk, h1, h2⟩ := (hloop env').mp h
        exact (hloop env).mpr ⟨k, hk, by rw [(hag k hk).1]; exact h1,
          by rw [(hag k hk).2]; exact h2⟩
      | false =>
        by_cases h2 : removalLoop env MAX_RETRY_ATTEMPTS 0 = true
        · obtain ⟨k, hk, ha, hb⟩ := (hloop env).mp h2
          have hcontra : removalLoop env' MAX_RETRY_ATTEMPTS 0 = true :=
            (hloop env').mpr ⟨k, hk, by rw [← (hag k hk).1]; exact ha,
              by rw [← (hag k hk).2]; exact hb⟩
          rw [h] at hcontra; exact absurd hcontra (by decide)
        · simpa using h2
    simp only [removeGitDirectory, he, hf, hl]
  · intro w p
    cases w with
    | false => exact containsSeq_infix p ("rm -rf \"".toList) ['"']
    | true => exact containsSeq_infix p ("Remove-Item -Recurse -Force \"".toList) ['"']

theorem removeGitDirectory_bounded_polling_witness :
    removeGitDirectory ⟨true, fun _ => true, fun k => decide (k < 10), true⟩ =
    removeGitDirectory ⟨true, fun _ => true, fun _ => true, true⟩ :=
  removeGitDirectory_bounded_polling.2.2.2.2.1
    ⟨true, fun _ => true, fun k => decide (k < 10), true⟩
    ⟨true, fun _ => true, fun _ => true, true⟩ rfl rfl
    (fun k hk => ⟨rfl, by have hk2 : k < 10 := hk; simp [hk2]⟩)

/-- isGitRelatedFile from the source: names excluded from every copy
level. -/
def isGitRelatedFile (name : List Char) : Bool :=
  name = ".git".toList || name = ".gitignore".toList || name = ".gitattributes".toList

/-- A filesystem node as the copy walk observes it through withFileTypes
directory entries: a plain file (content abstracted to a Nat), a plain
directory, a symbolic link whose statSync resolves to a file, a symbolic
link whose statSync resolves to a directory (the resolved entry list),
or a broken or inaccessible symbolic link. -/
inductive FsNode where
  | file : Nat → FsNode
  | dir : List (List Char × FsNode) → FsNode
  | linkFile : Nat → FsNode
  | linkDir : List (List Char × FsNode) → FsNode
  | linkBroken : FsNode

/-- copyRecursive from the source, expressed on the entry list of the
source directory, producing the entry list created at the destination:
Git-related names are skipped at every level, directories recurse,
files are copied, file symlinks are copied as their file content,
directory symlinks are dereferenced and their contents copied
recursively, and broken symlinks are skipped. -/
def copyEntries : List (List Char × FsNode) → List (List Char × FsNode)
  | [] => []
  | (n, nd) :: rest =>
    if isGitRelatedFile n then copyEntries rest
    else
      match nd with
      | .file c => (n, .file c) :: copyEntries rest
      | .dir es =>
        if isGitRelatedFile n then copyEntries rest
        else (n, .dir (copyEntries es)) :: copyEntries rest
      | .linkFile c =>
        if isGitRelatedFile n then copyEntries rest
        else (n, .file c) :: copyEntries rest
      | .linkDir es =>
        if isGitRelatedFile n then copyEntries rest
        else (n, .dir (copyEntries es)) :: copyEntries rest
      | .linkBroken => copyEntries rest

/-- The destination invariant: no Git-related names at any depth, and
only plain files and plain directories (no symlink nodes). -/
def entriesClean : List (List Char × FsNode) → Bool
  | [] => true
  | (n, nd) :: rest =>
    !isGitRelatedFile n &&
    (match nd with
     | .file _ => true
     | .dir es => entriesClean es
     | _ => false) &&
    entriesClean rest

theorem copyEntries_clean (es : List (List Char × FsNode)) :
    entriesClean (copyEntries es) = true := by
  induction es using copyEntries.induct
  case case2 n nd rest h ih => cases nd <;> simp_all [copyEntries, entriesClean]
  all_goals simp_all [copyEntries, entriesClean]

/-- C7: the recursive copy never creates Git-related names at any depth
and never recreates a symlink node (everything written is a plain file
or plain directory); file symlinks are copied as their file content,
directory symlinks are dereferenced and their contents copied
recursively, and broken symlinks are skipped. -/
theorem copyRecursive_clean (es rest : List (List Char × FsNode))
    (n g : List Char) (c : Nat) (nd : FsNode)
    (h : isGitRelatedFile n = false) (hg : isGitRelatedFile g = true) :
    entriesClean (copyEntries es) = true ∧
    copyEntries ((n, .linkFile c) :: rest) = (n, .file c) :: copyEntries rest ∧
    copyEntries ((n, .linkDir es) :: rest) =
      (n, .dir (copyEntries es)) :: copyEntries rest ∧
    copyEntries ((n, .linkBroken) :: rest) = copyEntries rest ∧
    copyEntries ((g, nd) :: rest) = copyEntries rest := by
  refine ⟨copyEntries_clean es, ?_, ?_, ?_, ?_⟩
  · simp [copyEntries, h]
  · simp [copyEntries, h]
  · simp [copyEntries, h]
  · cases nd <;> simp [copyEntries, hg]

theorem copyRecursive_clean_witness :
    entriesClean (copyEntries [(['b'], FsNode.file 7)]) = true ∧
    copyEntries [(['a'], FsNode.linkFile 5)] = [(['a'], FsNode.file 5)] ∧
    copyEntries [(['a'], FsNode.linkDir [(['b'], FsNode.file 7)])] =
      [(['a'], FsNode.dir (copyEntries [(['b'], FsNode.file 7)]))] ∧
    copyEntries [(['a'], FsNode.linkBroken)] = copyEntries [] ∧
    copyEntries [(".git".toList, FsNode.dir [])] = copyEntries [] := by
  have h := copyRecursive_clean [(['b'], FsNode.file 7)] [] ['a'] ".git".toList 5
    (FsNode.dir []) (by decide) (by decide)
  refine ⟨h.1, ?_, ?_, h.2.2.2.1, h.2.2.2.2⟩
  · rw [h.2.1]; simp [copyEntries]
  · rw [h.2.2.1]; simp [copyEntries]

/-- Outcome of one confirmation prompt: accepted, declined, or the
distinct user-interrupt signal (ExitPromptError). -/
inductive CRes where
  | yes : CRes
  | no : CRes
  | interrupted : CRes
deriving DecidableEq

/-- Abstract per-bundle environment sampled by the publish loop: whether
the target path already exists, the confirmation answer (consulted only
when the target exists and confirmations are not skipped), whether a
.git entry exists at the target (isSubmodule), whether the index lists
it with the submodule mode (isRegisteredSubmodule), whether the
checkpoint status after submodule cleanup shows staged changes, whether
the copy try-block throws, the result of the post-copy .git removal,
whether SKILL.md exists at the target after the copy, and the results of
the two pre-add .git removals. -/
structure SEnv where
  targetExists : Bool
  confirmRes : CRes
  isSub : Bool
  isReg : Bool
  cleanupStaged : Bool
  copyFails : Bool
  postGitRemoved : Bool
  skillMd : Bool
  preAddRemoved : Bool
  preAdd2Removed : Bool
deriving DecidableEq

/-- One bundle of the publish invocation: its name and its abstract
filesystem/git behavior. -/
structure SkillItem where
  name : List Char
  senv : SEnv
deriving DecidableEq

/-- Observable events of one publish run: each invocation of the
external git process, plus the copied/skipped decision per bundle. -/
inductive Ev where
  | gitCloneE : Ev
  | gitFetchE : Ev
  | gitPullE : Nat → Ev
  | gitLsFilesE : Ev
  | gitRmE : Ev
  | gitCleanupE : Ev
  | gitStatusE : Ev
  | gitCommitE : Ev
  | gitAddE : Ev
  | gitAddAllE : Ev
  | gitLsTrackedE : Ev
  | gitPushE : Nat → Ev
  | copiedE : SkillItem → Ev
  | skippedEv : SkillItem → Ev
deriving DecidableEq

/-- An execSync error as the source inspects it: optional stderr and
stdout buffers with their text. -/
structure ExecErr where
  stderrPresent : Bool
  stderrText : List Char
  stdoutPresent : Bool
  stdoutText : List Char
deriving DecidableEq

/-- error.stderr?.toString() || error.stdout?.toString() || '' from the
source: the first non-empty text wins. -/
def errorMsgOf (e : ExecErr) : List Char :=
  if e.stderrPresent && !e.stderrText.isEmpty then e.stderrText
  else if e.stdoutPresent && !e.stdoutText.isEmpty then e.stdoutText
  else []

/-- The push loop's continue test: the failure text mentions
refs/heads/<branch> or "Could not read". -/
def branchMissing (branch : List Char) (e : ExecErr) : Bool :=
  containsSeq ("refs/heads/".toList ++ branch) (errorMsgOf e) ||
  containsSeq "Could not read".toList (errorMsgOf e)

/-- The three remediation hints of the push failure report. -/
inductive Hint where
  | auth : Hint
  | upstream : Hint
  | rebase : Hint
deriving DecidableEq

/-- Hint selection of the push failure report: only when a stderr
buffer is present, first matching pattern of the if/else chain wins,
and no hint is attached when no pattern matches. -/
def selectHint : Option ExecErr → Option Hint
  | none => none
  | some e =>
    if !e.stderrPresent then none
    else
      if containsSeq "authentication".toList e.stderrText ||
         containsSeq "permission".toList e.stderrText ||
         containsSeq "denied".toList e.stderrText then some .auth
      else if containsSeq "no upstream".toList e.stderrText ||
              containsSeq "no tracking".toList e.stderrText then some .upstream
      else if containsSeq "rejected".toList e.stderrText ||
              containsSeq "non-fast-forward".toList e.stderrText then some .rebase
      else none

/-- The literal branch name main, first entry of DEFAULT_BRANCHES. -/
def mainBranch : List Char := "main".toList

/-- The literal branch name master, second entry of DEFAULT_BRANCHES. -/
def masterBranch : List Char := "master".toList

/-- sanitizeBranchName from the source: keep a valid branch name, fall
back to main otherwise. -/
def sanitizeBranchName (b : List Char) : List Char :=
  if isValidBranchName b then b else mainBranch

/-- getCurrentBranch from the source: the trimmed rev-parse output
sanitized, or main when the query fails. -/
def getCurrentBranchP : Option (List Char) → List Char
  | some b => sanitizeBranchName b
  | none => mainBranch

/-- Abstract environment of pushToRemote: whether origin has a URL,
the rev-parse result, and the outcome of each push attempt by index
(none is success). -/
structure PushEnv where
  remoteUrlOk : Bool
  revParse : Option (List Char)
  attempts : Nat → Option ExecErr

/-- Result of pushToRemote: no configured remote (fatal), pushed at
attempt index i, or fatal failure carrying the last error and the
selected hint. -/
inductive PushOutcome where
  | noRemote : PushOutcome
  | pushed : Nat → PushOutcome
  | failedP : Option ExecErr → Option Hint → PushOutcome
deriving DecidableEq

/-- The push attempt loop from the source: stop at the first success; a
failure whose text indicates the remote branch is missing advances to
the next candidate (recording lastError); any other failure stops; when
the candidates are exhausted the loop fails with the last error. -/
def pushLoop (att : Nat → Option ExecErr) :
    Option ExecErr → List (Nat × List Char) → PushOutcome × List Ev
  | last, [] => (.failedP last (selectHint last), [])
  | _, (i, b) :: rest =>
    match att i with
    | none => (.pushed i, [Ev.gitPushE i])
    | some e =>
      if branchMissing b e then
        let r := pushLoop att (some e) rest
        (r.1, Ev.gitPushE i :: r.2)
      else (.failedP (some e) (selectHint (some e)), [Ev.gitPushE i])

/-- Branch candidate at each attempt index: current branch first (pushed
with the set-upstream flag), then main, then master. -/
def candAt (env : PushEnv) : Nat → List Char
  | 0 => getCurrentBranchP env.revParse
  | 1 => mainBranch
  | _ => masterBranch

/-- pushToRemote from the source: fatal when origin has no URL, else
the attempt loop over [current branch, main, master]. -/
def pushToRemote (env : PushEnv) : PushOutcome × List Ev :=
  if !env.remoteUrlOk then (.noRemote, [])
  else
    pushLoop env.attempts none
      [(0, getCurrentBranchP env.revParse), (1, mainBranch), (2, masterBranch)]

/-- A push failure whose stderr matches none of the hint patterns. -/
def errCex : ExecErr := ⟨true, "fatal: unable to access host".toList, false, []⟩

/-- Push environment whose single relevant attempt fails with a
pattern-free diagnostic on branch dev. -/
def pushEnvCex : PushEnv := ⟨true, some "dev".toList, fun _ => some errCex⟩

/-- C5 counterexample: a push failure whose diagnostic text matches none
of the three hint patterns makes the sequence stop fatally with no
remediation hint selected at all, refuting that the diagnostic text
selects exactly one hint. -/
theorem push_no_hint_cex :
    (pushToRemote pushEnvCex).1 = .failedP (some errCex) none ∧
    selectHint (some errCex) = none := by
  constructor
  · show (pushLoop pushEnvCex.attempts none _).1 = _
    decide
  · decide

/-- C5 (amended): the push step attempts [current branch (tracking),
main, master] in that order and stops at the first success; a failure
whose diagnostic mentions refs/heads/<branch> or "Could not read"
advances to the next candidate, any other failure stops the sequence;
after the sequence fails the outcome is the fatal failedP result
carrying the stopping (or last) error, and the diagnostic selects at
most one remediation hint - authentication, set-upstream, or
pull-rebase, first matching pattern of the chain - or none when no
pattern matches. -/
theorem pushToRemote_branch_fallback (env : PushEnv) (h : env.remoteUrlOk = true) :
    (env.attempts 0 = none → (pushToRemote env).1 = .pushed 0) ∧
    (∀ e0, env.attempts 0 = some e0 →
      (branchMissing (candAt env 0) e0 = false →
        (pushToRemote env).1 = .failedP (some e0) (selectHint (some e0))) ∧
      (branchMissing (candAt env 0) e0 = true →
        (env.attempts 1 = none → (pushToRemote env).1 = .pushed 1) ∧
        (∀ e1, env.attempts 1 = some e1 →
          (branchMissing (candAt env 1) e1 = false →
            (pushToRemote env).1 = .failedP (some e1) (selectHint (some e1))) ∧
          (branchMissing (candAt env 1) e1 = true →
            (env.attempts 2 = none → (pushToRemote env).1 = .pushed 2) ∧
            (∀ e2, env.attempts 2 = some e2 →
              (pushToRemote env).1 = .failedP (some e2) (selectHint (some e2))))))) ∧
    (∀ le hint, (pushToRemote env).1 = .failedP le hint → hint = selectHint le) := by
  have hrw : pushToRemote env = pushLoop env.attempts none
      [(0, getCurrentBranchP env.revParse), (1, mainBranch), (2, masterBranch)] := by
    simp [pushToRemote, h]
  have hc0 : candAt env 0 = getCurrentBranchP env.revParse := rfl
  have hc1 : candAt env 1 = mainBranch := rfl
  have hc2 : candAt env 2 = masterBranch := rfl
  refine ⟨?_, ?_, ?_⟩
  · intro h0
    rw [hrw]
    simp [pushLoop, h0]
  · intro e0 h0
    constructor
    · intro hb0
      rw [hrw]
      rw [hc0] at hb0
      simp [pushLoop, h0, hb0]
    · intro hb0
      rw [hc0] at hb0
      constructor
      · intro h1
        rw [hrw]
        simp [pushLoop, h0, hb0, h1]
      · intro e1 h1
        constructor
        · intro hb1
          rw [hrw]
          rw [hc1] at hb1
          simp [pushLoop, h0, hb0, h1, hb1]
        · intro hb1
          rw [hc1] at hb1
          constructor
          · intro h2
            rw [hrw]
            simp [pushLoop, h0, hb0, h1, hb1, h2]
          · intro e2 h2
            rw [hrw]
            by_cases hb2 : branchMissing masterBranch e2 = true
            · simp [pushLoop, h0, hb0, h1, hb1, h2, hb2]
            · have hb2f : branchMissing masterBranch e2 = false := by simpa using hb2
              simp [pushLoop, h0, hb0, h1, hb1, h2, hb2f]
  · intro le hint heq
    rw [hrw] at heq
    rcases h0 : env.attempts 0 with _ | e0
    · simp [pushLoop, h0] at heq
    · by_cases hb0 : branchMissing (getCurrentBranchP env.revParse) e0 = true
      · rcases h1 : env.attempts 1 with _ | e1
        · simp [pushLoop, h0, hb0, h1] at heq
        · by_cases hb1 : branchMissing mainBranch e1 = true
          · rcases h2 : env.attempts 2 with _ | e2
            · simp [pushLoop, h0, hb0, h1, hb1, h2] at heq
            · by_cases hb2 : branchMissing masterBranch e2 = true
              · simp [pushLoop, h0, hb0, h1, hb1, h2, hb2] at heq
                rw [← heq.1, heq.2]
              · have hb2f : branchMissing masterBranch e2 = false := by simpa using hb2
                simp [pushLoop, h0, hb0, h1, hb1, h2, hb2f] at heq
                rw [← heq.1, heq.2]
          · have hb1f : branchMissing mainBranch e1 = false := by simpa using hb1
            simp [pushLoop, h0, hb0, h1, hb1f] at heq
            rw [← heq.1, heq.2]
      · have hb0f : branchMissing (getCurrentBranchP env.revParse) e0 = false := by
          simpa using hb0
        simp [pushLoop, h0, hb0f] at heq
        rw [← heq.1, heq.2]

theorem pushToRemote_branch_fallback_witness :
    (pushToRemote ⟨true, some "dev".toList,
      fun i => if i = 0 then some ⟨true, "error: failed to push some refs to refs/heads/dev".toList, false, []⟩
               else none⟩).1 = .pushed 1 := by
  have h := pushToRemote_branch_fallback ⟨true, some "dev".toList,
    fun i => if i = 0 then some ⟨true, "error: failed to push some refs to refs/heads/dev".toList, false, []⟩
             else none⟩ rfl
  exact ((h.2.1 ⟨true, "error: failed to push some refs to refs/heads/dev".toList, false, []⟩
    rfl).2 (by decide)).1 rfl

/-- Reasons the per-bundle loop aborts the whole publish: invalid skill
name (exit 1), user interrupt of the overwrite prompt (exit 0), a throw
in the copy try-block (exit 1), failed post-copy .git removal (exit 1),
missing SKILL.md after copy (exit 1). -/
inductive LoopAbort where
  | invalidNameA : LoopAbort
  | cancelledA : LoopAbort
  | copyA : LoopAbort
  | gitDirA : LoopAbort
  | noMdA : LoopAbort
deriving DecidableEq

/-- Result of processing one bundle: proceed (copied), skip (declined
overwrite, loop continues), or abort the whole publish. -/
inductive StepRes where
  | proceeded : StepRes
  | skippedR : StepRes
  | abortR : LoopAbort → StepRes
deriving DecidableEq

/-- One iteration of the per-bundle publish loop from the source:
validate the skill name (abort on failure); when the target exists and
confirmations are not skipped, ask for overwrite confirmation -
declining skips only this bundle, an interrupt aborts the publish;
otherwise query the index and remove the old content (git ls-files and
git rm, submodule cleanup and a checkpoint commit when a submodule was
present), copy, then verify .git is gone and SKILL.md is present at the
target, aborting the publish when either check fails. -/
def skillBody (it : SkillItem) : List Ev × StepRes :=
  let evs1 : List Ev :=
    if it.senv.targetExists then
      [Ev.gitLsFilesE, Ev.gitRmE] ++ (if it.senv.isSub || it.senv.isReg then [Ev.gitCleanupE] else [])
    else []
  let evs2 : List Ev :=
    if it.senv.targetExists && (it.senv.isSub || it.senv.isReg) then
      Ev.gitStatusE :: (if it.senv.cleanupStaged then [Ev.gitCommitE] else [])
    else []
  if it.senv.copyFails then (evs1 ++ evs2, .abortR .copyA)
  else if !it.senv.postGitRemoved then (evs1 ++ evs2, .abortR .gitDirA)
  else if !it.senv.skillMd then (evs1 ++ evs2, .abortR .noMdA)
  else (evs1 ++ evs2 ++ [Ev.copiedE it], .proceeded)

def processSkillEv (optYes : Bool) (it : SkillItem) : List Ev × StepRes :=
  if !isValidSkillName it.name then ([], .abortR .invalidNameA)
  else if it.senv.targetExists && !optYes then
    match it.senv.confirmRes with
    | .no => ([Ev.skippedEv it], .skippedR)
    | .interrupted => ([], .abortR .cancelledA)
    | .yes => skillBody it
  else skillBody it

/-- The per-bundle loop: a skipped bundle lets the loop continue with
the remainder; any abort stops the loop at once, leaving the remaining
bundles unprocessed. -/
def processLoop (optYes : Bool) : List SkillItem → List Ev × Option LoopAbort
  | [] => ([], none)
  | it :: rest =>
    match processSkillEv optYes it with
    | (evs, .proceeded) =>
      let r := processLoop optYes rest
      (evs ++ r.1, r.2)
    | (evs, .skippedR) =>
      let r := processLoop optYes rest
      (evs ++ r.1, r.2)
    | (evs, .abortR a) => (evs, some a)

/-- Events of the pull fallback of the update path: pull the current
branch, then main, then master, stopping at the first success (all
failures are swallowed). -/
def pullEvs (p : Nat → Bool) : List Ev :=
  if p 0 then [Ev.gitPullE 0]
  else if p 1 then [Ev.gitPullE 0, Ev.gitPullE 1]
  else [Ev.gitPullE 0, Ev.gitPullE 1, Ev.gitPullE 2]

/-- Global abstract environment of uploadToRepository. -/
structure UploadEnv where
  repoName : List Char
  repoUrl : List Char
  localExists : Bool
  cloneOk : Bool
  fetchOk : Bool
  pullResults : Nat → Bool
  optYes : Bool
  skills : List SkillItem
  addOk : Bool
  statusOk : Bool
  staged : Bool
  commitRes : Option ExecErr
  push : PushEnv

/-- Clone-or-update phase: clone when the local mirror is absent (fatal
on failure); otherwise fetch and try the pull fallback, all failures
swallowed as repository-ready. -/
def clonePhase (env : UploadEnv) : List Ev × Bool :=
  if !env.localExists then ([Ev.gitCloneE], env.cloneOk)
  else if !env.fetchOk then ([Ev.gitFetchE], true)
  else (Ev.gitFetchE :: pullEvs env.pullResults, true)

/-- Outcome of one publish invocation; fatal constructors correspond to
process.exit(1), cancelled to the prompt-interrupt exit 0, noChanges
and pushDone (pushed i) to the successful returns. -/
inductive UpOutcome where
  | fatalRepoName : UpOutcome
  | fatalUrl : UpOutcome
  | fatalClone : UpOutcome
  | fatalSkillName : UpOutcome
  | cancelled : UpOutcome
  | fatalCopyErr : UpOutcome
  | fatalGitDir : UpOutcome
  | fatalNoSkillMd : UpOutcome
  | fatalPreAdd : UpOutcome
  | fatalAdd : UpOutcome
  | fatalStatus : UpOutcome
  | fatalCommit : Bool → UpOutcome
  | noChanges : UpOutcome
  | pushDone : PushOutcome → UpOutcome
deriving DecidableEq

/-- The add loop: for every bundle of the invocation (skipped ones
included) re-check the .git removal, abort on failure, then git add -f
the bundle path. -/
def addLoop : List SkillItem → List Ev × Bool
  | [] => ([], true)
  | it :: rest =>
    if !it.senv.preAdd2Removed then ([], false)
    else
      let r := addLoop rest
      (Ev.gitAddE :: r.1, r.2)

/-- Staging phase: the pre-add .git re-check over all bundles, the add
loop with its own re-checks, and the blanket git add -A, fatal when the
adds fail. -/
def addPhase (its : List SkillItem) (addOk : Bool) : List Ev × Option UpOutcome :=
  if !its.all (fun it => it.senv.preAddRemoved) then ([], some .fatalPreAdd)
  else
    let r := addLoop its
    if !r.2 then (r.1, some .fatalPreAdd)
    else if !addOk then (r.1 ++ [Ev.gitAddAllE], some .fatalAdd)
    else (r.1 ++ [Ev.gitAddAllE], none)

def nothingToCommit1 : List Char := "nothing to commit".toList

def nothingToCommit2 : List Char := "nothing added to commit".toList

/-- Commit-and-push phase: check staged changes (fatal when the status
query throws); nothing staged ends the publish successfully with the
no-changes report (plus the informational git ls-files listing); else
commit - a commit failure whose lowercased diagnostic indicates nothing
to commit is reclassified as the successful no-changes outcome, an
author-identity failure carries the configuration hint flag, any other
failure is fatal - and finally push. -/
def commitPushPhase (env : UploadEnv) : UpOutcome × List Ev :=
  if !env.statusOk then (.fatalStatus, [Ev.gitStatusE])
  else if !env.staged then (.noChanges, [Ev.gitStatusE, Ev.gitLsTrackedE])
  else
    match env.commitRes with
    | none =>
      let p := pushToRemote env.push
      (.pushDone p.1, [Ev.gitStatusE, Ev.gitCommitE] ++ p.2)
    | some e =>
      let lt := lowerL (errorMsgOf e)
      if containsSeq nothingToCommit1 lt || containsSeq nothingToCommit2 lt then
        (.noChanges, [Ev.gitStatusE, Ev.gitCommitE])
      else
        (.fatalCommit (containsSeq "author".toList lt ||
           containsSeq "user.name".toList lt || containsSeq "user.email".toList lt),
         [Ev.gitStatusE, Ev.gitCommitE])

/-- uploadToRepository from the source: validate the repository name and
URL before any external process; clone or update the mirror; run the
per-bundle loop; then the staging, commit and push phases.  The result
carries the publish outcome and the ordered trace of observable
events. -/
def uploadToRepository (env : UploadEnv) : UpOutcome × List Ev :=
  if !isValidRepoName env.repoName then (.fatalRepoName, [])
  else if !isValidGitUrl env.repoUrl then (.fatalUrl, [])
  else
    let c := clonePhase env
    if !c.2 then (.fatalClone, c.1)
    else
      let l := processLoop env.optYes env.skills
      match l.2 with
      | some .invalidNameA => (.fatalSkillName, c.1 ++ l.1)
      | some .cancelledA => (.cancelled, c.1 ++ l.1)
      | some .copyA => (.fatalCopyErr, c.1 ++ l.1)
      | some .gitDirA => (.fatalGitDir, c.1 ++ l.1)
      | some .noMdA => (.fatalNoSkillMd, c.1 ++ l.1)
      | none =>
        let a := addPhase env.skills env.addOk
        match a.2 with
        | some o => (o, c.1 ++ l.1 ++ a.1)
        | none =>
          let cp := commitPushPhase env
          (cp.1, c.1 ++ l.1 ++ a.1 ++ cp.2)

theorem copied_skillBody (it j : SkillItem)
    (h : Ev.copiedE j ∈ (skillBody it).1) :
    j = it ∧ it.senv.copyFails = false ∧ it.senv.postGitRemoved = true ∧
    it.senv.skillMd = true := by
  obtain ⟨nm, te, cr, isS, isR, cs, cf, pg, md, p1, p2⟩ := it
  cases te <;> cases isS <;> cases isR <;> cases cs <;> cases cf <;> cases pg <;> cases md <;>
    simp_all [skillBody]

theorem copied_processSkillEv (optYes : Bool) (it j : SkillItem)
    (h : Ev.copiedE j ∈ (processSkillEv optYes it).1) :
    j = it ∧ it.senv.copyFails = false ∧ it.senv.postGitRemoved = true ∧
    it.senv.skillMd = true ∧ isValidSkillName it.name = true := by
  by_cases hv : isValidSkillName it.name
  · refine ⟨?_, ?_, ?_, ?_, hv⟩ <;>
    · rcases hb : (it.senv.targetExists && !optYes) with _ | _ <;>
        rcases hc : it.senv.confirmRes with _ | _ | _ <;>
        simp_all [processSkillEv] <;>
        first
        | exact (copied_skillBody it j h).1
        | exact (copied_skillBody it j h).2.1
        | exact (copied_skillBody it j h).2.2.1
        | exact (copied_skillBody it j h).2.2.2
  · simp [processSkillEv, hv] at h

theorem copied_processLoop (optYes : Bool) (its : List SkillItem) (j : SkillItem)
    (h : Ev.copiedE j ∈ (processLoop optYes its).1) :
    j.senv.copyFails = false ∧ j.senv.postGitRemoved = true ∧
    j.senv.skillMd = true ∧ isValidSkillName j.name = true := by
  induction its with
  | nil => simp [processLoop] at h
  | cons it rest ih =>
    rcases hs : processSkillEv optYes it with ⟨evs, sr⟩
    rcases sr with _ | _ | a
    · rw [show processLoop optYes (it :: rest) =
        (evs ++ (processLoop optYes rest).1, (processLoop optYes rest).2) by
          simp [processLoop, hs]] at h
      rcases List.mem_append.mp h with h2 | h2
      · have := copied_processSkillEv optYes it j (by rw [hs]; exact h2)
        obtain ⟨rfl, a, b, c, d⟩ := this
        exact ⟨a, b, c, d⟩
      · exact ih h2
    · rw [show processLoop optYes (it :: rest) =
        (evs ++ (processLoop optYes rest).1, (processLoop optYes rest).2) by
          simp [processLoop, hs]] at h
      rcases List.mem_append.mp h with h2 | h2
      · have := copied_processSkillEv optYes it j (by rw [hs]; exact h2)
        obtain ⟨rfl, a, b, c, d⟩ := this
        exact ⟨a, b, c, d⟩
      · exact ih h2
    · rw [show processLoop optYes (it :: rest) = (evs, some a) by
        simp [processLoop, hs]] at h
      have := copied_processSkillEv optYes it j (by rw [hs]; exact h)
      obtain ⟨rfl, a2, b, c, d⟩ := this
      exact ⟨a2, b, c, d⟩

theorem no_push_skillBody (it : SkillItem) (i : Nat) :
    Ev.gitPushE i ∉ (skillBody it).1 := by
  obtain ⟨nm, te, cr, isS, isR, cs, cf, pg, md, p1, p2⟩ := it
  cases te <;> cases isS <;> cases isR <;> cases cs <;> cases cf <;> cases pg <;> cases md <;>
    simp [skillBody]

theorem no_push_processSkillEv (optYes : Bool) (it : SkillItem) (i : Nat) :
    Ev.gitPushE i ∉ (processSkillEv optYes it).1 := by
  by_cases hv : isValidSkillName it.name
  · rcases hte : it.senv.targetExists with _ | _ <;> cases optYes <;>
      rcases hc : it.senv.confirmRes with _ | _ | _ <;>
      simp_all [processSkillEv] <;> exact no_push_skillBody it i
  · simp [processSkillEv, hv]

theorem no_push_processLoop (optYes : Bool) (its : List SkillItem) (i : Nat) :
    Ev.gitPushE i ∉ (processLoop optYes its).1 := by
  induction its with
  | nil => simp [processLoop]
  | cons it rest ih =>
    rcases hs : processSkillEv optYes it with ⟨evs, sr⟩
    have hne : Ev.gitPushE i ∉ evs := by
      have := no_push_processSkillEv optYes it i
      rw [hs] at this; exact this
    rcases sr with _ | _ | a <;>
      simp_all [processLoop, hs, List.mem_append]

theorem no_push_clonePhase (env : UploadEnv) (i : Nat) :
    Ev.gitPushE i ∉ (clonePhase env).1 := by
  unfold clonePhase pullEvs
  rcases env.localExists with _ | _ <;> rcases env.cloneOk with _ | _ <;>
    rcases env.fetchOk with _ | _ <;>
    rcases h0 : env.pullResults 0 with _ | _ <;>
    rcases h1 : env.pullResults 1 with _ | _ <;> simp_all

theorem no_push_addLoop (its : List SkillItem) (i : Nat) :
    Ev.gitPushE i ∉ (addLoop its).1 := by
  induction its with
  | nil => simp [addLoop]
  | cons it rest ih =>
    rcases hp : it.senv.preAdd2Removed with _ | _ <;> simp_all [addLoop]

theorem no_push_addPhase (its : List SkillItem) (addOk : Bool) (i : Nat) :
    Ev.gitPushE i ∉ (addPhase its addOk).1 := by
  unfold addPhase
  have h := no_push_addLoop its i
  rcases hall : its.all (fun it => it.senv.preAdd2Removed)  with _ | _ <;>
    rcases hall2 : its.all (fun it => it.senv.preAddRemoved) with _ | _ <;>
    rcases hr : (addLoop its).2 with _ | _ <;>
    rcases addOk with _ | _ <;>
    simp_all [List.mem_append]

theorem processLoop_append (optYes : Bool) (pre post : List SkillItem)
    (h : (processLoop optYes pre).2 = none) :
    processLoop optYes (pre ++ post) =
      ((processLoop optYes pre).1 ++ (processLoop optYes post).1,
       (processLoop optYes post).2) := by
  induction pre with
  | nil => simp [processLoop]
  | cons it rest ih =>
    rcases hs : processSkillEv optYes it with ⟨evs, sr⟩
    rcases sr with _ | _ | a
    · have h2 : (processLoop optYes rest).2 = none := by
        rw [show processLoop optYes (it :: rest) =
          (evs ++ (processLoop optYes rest).1, (processLoop optYes rest).2) by
            simp [processLoop, hs]] at h
        exact h
      have := ih h2
      simp [processLoop, hs, this]
    · have h2 : (processLoop optYes rest).2 = none := by
        rw [show processLoop optYes (it :: rest) =
          (evs ++ (processLoop optYes rest).1, (processLoop optYes rest).2) by
            simp [processLoop, hs]] at h
        exact h
      have := ih h2
      simp [processLoop, hs, this]
    · rw [show processLoop optYes (it :: rest) = (evs, some a) by
        simp [processLoop, hs]] at h
      simp at h

theorem processLoop_abort_head (optYes : Bool) (it : SkillItem)
    (rest : List SkillItem) (a : LoopAbort)
    (h : (processSkillEv optYes it).2 = .abortR a) :
    processLoop optYes (it :: rest) = ((processSkillEv optYes it).1, some a) := by
  rcases hs : processSkillEv optYes it with ⟨evs, sr⟩
  rw [hs] at h
  simp at h
  subst h
  simp [processLoop, hs]

theorem skipped_processSkillEv (optYes : Bool) (it : SkillItem)
    (h : (processSkillEv optYes it).2 = .skippedR) :
    it.senv.targetExists = true ∧ optYes = false ∧ it.senv.confirmRes = CRes.no := by
  by_cases hv : isValidSkillName it.name
  · obtain ⟨nm, te, cr, isS, isR, cs, cf, pg, md, p1, p2⟩ := it
    cases te <;> cases optYes <;> cases cr <;> cases cf <;> cases pg <;> cases md <;>
      simp_all [processSkillEv, skillBody]
  · simp [processSkillEv, hv] at h

theorem skippedEv_processSkillEv (optYes : Bool) (it j : SkillItem)
    (h : Ev.skippedEv j ∈ (processSkillEv optYes it).1) :
    j = it ∧ isValidSkillName it.name = true ∧ it.senv.targetExists = true ∧
    optYes = false ∧ it.senv.confirmRes = CRes.no := by
  by_cases hv : isValidSkillName it.name
  · obtain ⟨nm, te, cr, isS, isR, cs, cf, pg, md, p1, p2⟩ := it
    cases te <;> cases optYes <;> cases cr <;> cases isS <;> cases isR <;> cases cs <;>
      cases cf <;> cases pg <;> cases md <;>
      simp_all [processSkillEv, skillBody]
  · simp [processSkillEv, hv] at h

theorem clonePhase_events (env : UploadEnv) :
    ∀ e ∈ (clonePhase env).1,
      e = Ev.gitCloneE ∨ e = Ev.gitFetchE ∨ ∃ i, e = Ev.gitPullE i := by
  intro e he
  unfold clonePhase pullEvs at he
  rcases hl : env.localExists with _ | _ <;>
    rcases hf : env.fetchOk with _ | _ <;>
    rcases h0 : env.pullResults 0 with _ | _ <;>
    rcases h1 : env.pullResults 1 with _ | _ <;>
    simp_all <;> tauto

theorem pushLoop_events (att : Nat → Option ExecErr) (last : Option ExecErr)
    (cands : List (Nat × List Char)) :
    ∀ e ∈ (pushLoop att last cands).2, ∃ i, e = Ev.gitPushE i := by
  induction cands generalizing last with
  | nil => simp [pushLoop]
  | cons p rest ih =>
    rcases p with ⟨i, b⟩
    intro e he
    rcases hatt : att i with _ | err
    · simp [pushLoop, hatt] at he
      exact ⟨i, he⟩
    · by_cases hb : branchMissing b err = true
      · simp [pushLoop, hatt, hb] at he
        rcases he with rfl | he2
        · exact ⟨i, rfl⟩
        · exact ih (some err) e he2
      · have hbf : branchMissing b err = false := by simpa using hb
        simp [pushLoop, hatt, hbf] at he
        exact ⟨i, he⟩

theorem pushToRemote_events (penv : PushEnv) :
    ∀ e ∈ (pushToRemote penv).2, ∃ i, e = Ev.gitPushE i := by
  intro e he
  unfold pushToRemote at he
  rcases hr : penv.remoteUrlOk with _ | _
  · simp [hr] at he
  · simp only [hr, Bool.not_true, Bool.false_eq_true, if_false] at he
    exact pushLoop_events penv.attempts none _ e he

theorem commitPushPhase_events (env : UploadEnv) :
    ∀ e ∈ (commitPushPhase env).2,
      e = Ev.gitStatusE ∨ e = Ev.gitLsTrackedE ∨ e = Ev.gitCommitE ∨
      ∃ i, e = Ev.gitPushE i := by
  intro e he
  unfold commitPushPhase at he
  rcases hst : env.statusOk with _ | _
  · simp_all
  · rcases hsg : env.staged with _ | _
    · simp_all; tauto
    · rcases hcr : env.commitRes with _ | err
      · simp only [hst, hsg, hcr, Bool.not_true, Bool.false_eq_true, if_false] at he
        simp at he
        rcases he with rfl | rfl | he2
        · tauto
        · tauto
        · exact Or.inr (Or.inr (Or.inr (pushToRemote_events env.push e he2)))
      · by_cases hn : (containsSeq nothingToCommit1 (lowerL (errorMsgOf err)) ||
            containsSeq nothingToCommit2 (lowerL (errorMsgOf err))) = true
        · simp_all; tauto
        · have hnf : (containsSeq nothingToCommit1 (lowerL (errorMsgOf err)) ||
              containsSeq nothingToCommit2 (lowerL (errorMsgOf err))) = false := by
            simpa using hn
          simp_all; tauto

theorem addLoop_events (its : List SkillItem) :
    ∀ e ∈ (addLoop its).1, e = Ev.gitAddE := by
  induction its with
  | nil => simp [addLoop]
  | cons it rest ih =>
    intro e he
    rcases hp : it.senv.preAdd2Removed with _ | _
    · simp [addLoop, hp] at he
    · simp [addLoop, hp] at he
      rcases he with rfl | he2
      · rfl
      · exact ih e he2

theorem addPhase_events (its : List SkillItem) (addOk : Bool) :
    ∀ e ∈ (addPhase its addOk).1, e = Ev.gitAddE ∨ e = Ev.gitAddAllE := by
  intro e he
  unfold addPhase at he
  rcases hall : its.all (fun it => it.senv.preAddRemoved) with _ | _
  · simp [hall] at he
  · simp only [hall, Bool.not_true, Bool.false_eq_true, if_false] at he
    rcases hr : (addLoop its).2 with _ | _
    · simp only [hr, Bool.not_false, if_true] at he
      exact Or.inl (addLoop_events its e he)
    · simp only [hr, Bool.not_true, Bool.false_eq_true, if_false] at he
      rcases addOk with _ | _ <;>
        simp only [Bool.not_false, Bool.not_true, Bool.false_eq_true, if_true, if_false,
          List.mem_append, List.mem_singleton] at he <;>
        rcases he with he2 | rfl
      · exact Or.inl (addLoop_events its e he2)
      · exact Or.inr rfl
      · exact Or.inl (addLoop_events its e he2)
      · exact Or.inr rfl

theorem addPhase_some (its : List SkillItem) (addOk : Bool) (o : UpOutcome)
    (h : (addPhase its addOk).2 = some o) :
    o = .fatalPreAdd ∨ o = .fatalAdd := by
  unfold addPhase at h
  rcases hall : its.all (fun it => it.senv.preAddRemoved) with _ | _
  · simp [hall] at h
    simp [← h]
  · simp only [hall, Bool.not_true, Bool.false_eq_true, if_false] at h
    rcases hr : (addLoop its).2 with _ | _
    · simp only [hr, Bool.not_false, if_true] at h
      simp at h
      simp [← h]
    · simp only [hr, Bool.not_true, Bool.false_eq_true, if_false] at h
      rcases addOk with _ | _ <;> simp at h <;> simp [← h]

theorem upload_trace_sub (env : UploadEnv) (e : Ev)
    (h : e ∈ (uploadToRepository env).2) :
    e ∈ (clonePhase env).1 ∨ e ∈ (processLoop env.optYes env.skills).1 ∨
    e ∈ (addPhase env.skills env.addOk).1 ∨ e ∈ (commitPushPhase env).2 := by
  unfold uploadToRepository at h
  by_cases h1 : isValidRepoName env.repoName = true
  · by_cases h2 : isValidGitUrl env.repoUrl = true
    · simp only [h1, h2, Bool.not_true, Bool.false_eq_true, if_false] at h
      rcases hc : (clonePhase env).2 with _ | _
      · simp only [hc, Bool.not_false, if_true] at h
        exact Or.inl h
      · simp only [hc, Bool.not_true, Bool.false_eq_true, if_false] at h
        rcases hl : (processLoop env.optYes env.skills).2 with _ | a
        · rcases ha : (addPhase env.skills env.addOk).2 with _ | o
          · simp only [hl, ha] at h
            simp only [List.append_assoc, List.mem_append] at h
            rcases h with h | h | h | h
            · exact Or.inl h
            · exact Or.inr (Or.inl h)
            · exact Or.inr (Or.inr (Or.inl h))
            · exact Or.inr (Or.inr (Or.inr h))
          · simp only [hl, ha] at h
            simp only [List.append_assoc, List.mem_append] at h
            rcases h with h | h | h
            · exact Or.inl h
            · exact Or.inr (Or.inl h)
            · exact Or.inr (Or.inr (Or.inl h))
        · rcases a <;>
            · simp only [hl] at h
              simp only [List.mem_append] at h
              rcases h with h | h
              · exact Or.inl h
              · exact Or.inr (Or.inl h)
    · simp [h1, h2] at h
  · simp [h1] at h

theorem commitPush_noChanges_evs (env : UploadEnv)
    (h : (commitPushPhase env).1 = .noChanges) :
    (commitPushPhase env).2 = [Ev.gitStatusE, Ev.gitLsTrackedE] ∨
    (commitPushPhase env).2 = [Ev.gitStatusE, Ev.gitCommitE] := by
  unfold commitPushPhase at h ⊢
  rcases hst : env.statusOk with _ | _
  · simp [hst] at h
  · rcases hsg : env.staged with _ | _
    · simp [hst, hsg]
    · rcases hcr : env.commitRes with _ | err
      · simp [hst, hsg, hcr] at h
      · by_cases hn : (containsSeq nothingToCommit1 (lowerL (errorMsgOf err)) ||
            containsSeq nothingToCommit2 (lowerL (errorMsgOf err))) = true
        · simp [hst, hsg, hcr, hn]
        · have hnf : (containsSeq nothingToCommit1 (lowerL (errorMsgOf err)) ||
              containsSeq nothingToCommit2 (lowerL (errorMsgOf err))) = false := by
            simpa using hn
          simp [hst, hsg, hcr, hnf] at h

theorem upload_noChanges_shape (env : UploadEnv)
    (h : (uploadToRepository env).1 = .noChanges) :
    (commitPushPhase env).1 = .noChanges ∧
    (uploadToRepository env).2 =
      (clonePhase env).1 ++ ((processLoop env.optYes env.skills).1 ++
      ((addPhase env.skills env.addOk).1 ++ (commitPushPhase env).2)) := by
  unfold uploadToRepository at h ⊢
  by_cases h1 : isValidRepoName env.repoName = true
  · by_cases h2 : isValidGitUrl env.repoUrl = true
    · simp only [h1, h2, Bool.not_true, Bool.false_eq_true, if_false] at h ⊢
      rcases hc : (clonePhase env).2 with _ | _
      · simp [hc] at h
      · simp only [hc, Bool.not_true, Bool.false_eq_true, if_false] at h ⊢
        rcases hl : (processLoop env.optYes env.skills).2 with _ | a
        · rcases ha : (addPhase env.skills env.addOk).2 with _ | o
          · simp only [hl, ha] at h ⊢
            exact ⟨h, by simp⟩
          · rcases addPhase_some env.skills env.addOk o ha with rfl | rfl <;>
              simp [hl, ha] at h
        · rcases a <;> simp [hl] at h
    · simp [h1, h2] at h
  · simp [h1] at h

theorem reach_body (optYes : Bool) (it : SkillItem)
    (hv : isValidSkillName it.name = true)
    (hd : it.senv.targetExists = false ∨ optYes = true ∨ it.senv.confirmRes = CRes.yes) :
    processSkillEv optYes it = skillBody it := by
  unfold processSkillEv
  by_cases hb : (it.senv.targetExists && !optYes) = true
  · have hcr : it.senv.confirmRes = CRes.yes := by
      rcases hd with h | h | h
      · rw [h] at hb; simp at hb
      · rw [h] at hb; simp at hb
      · exact h
    simp [hv, hb, hcr]
  · have hbf : (it.senv.targetExists && !optYes) = false := by simpa using hb
    simp [hv, hbf]

/-- C2: after the copy step the pipeline verifies that no .git exists at
the target and that SKILL.md is present; a failed verification aborts
the bundle loop (and with it the whole publish) rather than skipping; a
bundle is only ever skipped by a declined overwrite confirmation; and
every bundle with a copied event in any run's trace passed both
verifications. -/
theorem publish_postcopy_invariant :
    (∀ (optYes : Bool) (it : SkillItem),
      isValidSkillName it.name = true →
      (it.senv.targetExists = false ∨ optYes = true ∨ it.senv.confirmRes = CRes.yes) →
      it.senv.copyFails = false →
      it.senv.postGitRemoved = false →
      (processSkillEv optYes it).2 = .abortR .gitDirA) ∧
    (∀ (optYes : Bool) (it : SkillItem),
      isValidSkillName it.name = true →
      (it.senv.targetExists = false ∨ optYes = true ∨ it.senv.confirmRes = CRes.yes) →
      it.senv.copyFails = false →
      it.senv.postGitRemoved = true → it.senv.skillMd = false →
      (processSkillEv optYes it).2 = .abortR .noMdA) ∧
    (∀ (optYes : Bool) (it : SkillItem) (rest : List SkillItem) (a : LoopAbort),
      (processSkillEv optYes it).2 = .abortR a →
      processLoop optYes (it :: rest) = ((processSkillEv optYes it).1, some a)) ∧
    (∀ (env : UploadEnv) (j : SkillItem),
      Ev.copiedE j ∈ (uploadToRepository env).2 →
      j.senv.postGitRemoved = true ∧ j.senv.skillMd = true) ∧
    (∀ (optYes : Bool) (it : SkillItem),
      (processSkillEv optYes it).2 = .skippedR →
      it.senv.targetExists = true ∧ optYes = false ∧ it.senv.confirmRes = CRes.no) := by
  refine ⟨?_, ?_, ?_, ?_, ?_⟩
  · intro optYes it hv hd hcf hpg
    rw [reach_body optYes it hv hd]
    simp [skillBody, hcf, hpg]
  · intro optYes it hv hd hcf hpg hmd
    rw [reach_body optYes it hv hd]
    simp [skillBody, hcf, hpg, hmd]
  · intro optYes it rest a h
    exact processLoop_abort_head optYes it rest a h
  · intro env j h
    rcases upload_trace_sub env _ h with h1 | h1 | h1 | h1
    · rcases clonePhase_events env _ h1 with h2 | h2 | ⟨i, h2⟩ <;> simp at h2
    · exact ⟨(copied_processLoop env.optYes env.skills j h1).2.1,
        (copied_processLoop env.optYes env.skills j h1).2.2.1⟩
    · rcases addPhase_events env.skills env.addOk _ h1 with h2 | h2 <;> simp at h2
    · rcases commitPushPhase_events env _ h1 with h2 | h2 | h2 | ⟨i, h2⟩ <;> simp at h2
  · intro optYes it h
    exact skipped_processSkillEv optYes it h

theorem publish_postcopy_invariant_witness :
    (processSkillEv true
      ⟨['a'], ⟨false, CRes.yes, false, false, false, false, false, true, true, true⟩⟩).2 =
      .abortR .gitDirA :=
  publish_postcopy_invariant.1 true
    ⟨['a'], ⟨false, CRes.yes, false, false, false, false, false, true, true, true⟩⟩
    (by decide) (Or.inl rfl) rfl rfl

/-- A publish invocation with a valid repository name and URL, a fresh
mirror (clone required), and a single bundle whose name contains a
slash and is therefore invalid. -/
def envC3 : UploadEnv :=
  { repoName := ['r']
    repoUrl := "https://x".toList
    localExists := false
    cloneOk := true
    fetchOk := true
    pullResults := fun _ => true
    optYes := true
    skills := [⟨"a/b".toList, ⟨false, CRes.yes, false, false, false, false, true, true, true, true⟩⟩]
    addOk := true
    statusOk := true
    staged := false
    commitRes := none
    push := ⟨true, none, fun _ => none⟩ }

/-- C3 counterexample: a bundle-name validation failure aborts the
publish, but only after the repository was cloned - the external
version-control process was invoked before the abort, refuting
"aborts before any external version-control process is invoked". -/
theorem validation_after_clone_cex :
    (uploadToRepository envC3).1 = .fatalSkillName ∧
    Ev.gitCloneE ∈ (uploadToRepository envC3).2 := by
  constructor
  · decide
  · decide

/-- C3 (amended): a remote-name or URL validation failure aborts the
publish before any external process is invoked (empty event trace); an
invalid bundle name always aborts the whole publish with a fatal error
- the bundle is never silently skipped and never copied - but this
check runs inside the per-bundle loop, after the clone/update phase
and after earlier bundles were processed. -/
theorem publish_validation_aborts :
    (∀ env : UploadEnv, isValidRepoName env.repoName = false →
      uploadToRepository env = (.fatalRepoName, [])) ∧
    (∀ env : UploadEnv, isValidRepoName env.repoName = true →
      isValidGitUrl env.repoUrl = false →
      uploadToRepository env = (.fatalUrl, [])) ∧
    (∀ (optYes : Bool) (it : SkillItem), isValidSkillName it.name = false →
      processSkillEv optYes it = ([], .abortR .invalidNameA)) ∧
    (∀ (optYes : Bool) (it : SkillItem) (rest : List SkillItem),
      isValidSkillName it.name = false →
      processLoop optYes (it :: rest) = ([], some .invalidNameA)) ∧
    (∀ env : UploadEnv, isValidRepoName env.repoName = true →
      isValidGitUrl env.repoUrl = true →
      (clonePhase env).2 = true →
      (processLoop env.optYes env.skills).2 = some .invalidNameA →
      uploadToRepository env =
        (.fatalSkillName, (clonePhase env).1 ++ (processLoop env.optYes env.skills).1)) ∧
    (∀ (env : UploadEnv) (j : SkillItem),
      Ev.skippedEv j ∈ (uploadToRepository env).2 → isValidSkillName j.name = true) ∧
    (∀ (env : UploadEnv) (j : SkillItem),
      Ev.copiedE j ∈ (uploadToRepository env).2 → isValidSkillName j.name = true) := by
  have hskip : ∀ (optYes : Bool) (its : List SkillItem) (j : SkillItem),
      Ev.skippedEv j ∈ (processLoop optYes its).1 → isValidSkillName j.name = true := by
    intro optYes its j h
    induction its with
    | nil => simp [processLoop] at h
    | cons it rest ih =>
      rcases hs : processSkillEv optYes it with ⟨evs, sr⟩
      have hmem : Ev.skippedEv j ∈ evs → isValidSkillName j.name = true := by
        intro h2
        have := skippedEv_processSkillEv optYes it j (by rw [hs]; exact h2)
        obtain ⟨rfl, hv, _⟩ := this
        exact hv
      rcases sr with _ | _ | a
      · rw [show processLoop optYes (it :: rest) =
          (evs ++ (processLoop optYes rest).1, (processLoop optYes rest).2) by
            simp [processLoop, hs]] at h
        rcases List.mem_append.mp h with h2 | h2
        · exact hmem h2
        · exact ih h2
      · rw [show processLoop optYes (it :: rest) =
          (evs ++ (processLoop optYes rest).1, (processLoop optYes rest).2) by
            simp [processLoop, hs]] at h
        rcases List.mem_append.mp h with h2 | h2
        · exact hmem h2
        · exact ih h2
      · rw [show processLoop optYes (it :: rest) = (evs, some a) by
          simp [processLoop, hs]] at h
        exact hmem h
  refine ⟨?_, ?_, ?_, ?_, ?_, ?_, ?_⟩
  · intro env h
    simp [uploadToRepository, h]
  · intro env h1 h2
    simp [uploadToRepository, h1, h2]
  · intro optYes it h
    simp [processSkillEv, h]
  · intro optYes it rest h
    have h2 : processSkillEv optYes it = ([], .abortR .invalidNameA) := by
      simp [processSkillEv, h]
    simp [processLoop, h2]
  · intro env h1 h2 h3 h4
    unfold uploadToRepository
    simp only [h1, h2, h3, h4, Bool.not_true, Bool.false_eq_true, if_false]
  · intro env j h
    rcases upload_trace_sub env _ h with h1 | h1 | h1 | h1
    · rcases clonePhase_events env _ h1 with h2 | h2 | ⟨i, h2⟩ <;> simp at h2
    · exact hskip env.optYes env.skills j h1
    · rcases addPhase_events env.skills env.addOk _ h1 with h2 | h2 <;> simp at h2
    · rcases commitPushPhase_events env _ h1 with h2 | h2 | h2 | ⟨i, h2⟩ <;> simp at h2
  · intro env j h
    rcases upload_trace_sub env _ h with h1 | h1 | h1 | h1
    · rcases clonePhase_events env _ h1 with h2 | h2 | ⟨i, h2⟩ <;> simp at h2
    · exact (copied_processLoop env.optYes env.skills j h1).2.2.2
    · rcases addPhase_events env.skills env.addOk _ h1 with h2 | h2 <;> simp at h2
    · rcases commitPushPhase_events env _ h1 with h2 | h2 | h2 | ⟨i, h2⟩ <;> simp at h2

theorem publish_validation_aborts_witness :
    uploadToRepository { envC3 with repoName := "bad/name".toList } =
      (.fatalRepoName, []) :=
  publish_validation_aborts.1 { envC3 with repoName := "bad/name".toList } (by decide)

/-- C6: when nothing is staged the publish ends successfully with the
no-changes outcome and neither commit nor push is attempted; a commit
failure whose lowercased diagnostic indicates nothing to commit is
reclassified as the same successful no-changes outcome; and a run whose
outcome is noChanges never contains a push invocation in its trace. -/
theorem noChanges_success :
    (∀ env : UploadEnv, env.statusOk = true → env.staged = false →
      commitPushPhase env = (.noChanges, [Ev.gitStatusE, Ev.gitLsTrackedE])) ∧
    (∀ (env : UploadEnv) (e : ExecErr), env.statusOk = true → env.staged = true →
      env.commitRes = some e →
      (containsSeq nothingToCommit1 (lowerL (errorMsgOf e)) = true ∨
       containsSeq nothingToCommit2 (lowerL (errorMsgOf e)) = true) →
      commitPushPhase env = (.noChanges, [Ev.gitStatusE, Ev.gitCommitE])) ∧
    (∀ env : UploadEnv, (uploadToRepository env).1 = .noChanges →
      ∀ i, Ev.gitPushE i ∉ (uploadToRepository env).2) := by
  refine ⟨?_, ?_, ?_⟩
  · intro env h1 h2
    simp [commitPushPhase, h1, h2]
  · intro env e h1 h2 h3 hd
    rcases hd with hd | hd <;> simp [commitPushPhase, h1, h2, h3, hd]
  · intro env h i hmem
    obtain ⟨hcp, hshape⟩ := upload_noChanges_shape env h
    rw [hshape] at hmem
    rcases List.mem_append.mp hmem with h1 | h1
    · rcases clonePhase_events env _ h1 with h2 | h2 | ⟨k, h2⟩ <;> simp at h2
    · rcases List.mem_append.mp h1 with h2 | h2
      · exact no_push_processLoop env.optYes env.skills i h2
      · rcases List.mem_append.mp h2 with h3 | h3
        · rcases addPhase_events env.skills env.addOk _ h3 with h4 | h4 <;> simp at h4
        · rcases commitPush_noChanges_evs env hcp with h4 | h4 <;> rw [h4] at h3 <;>
            simp at h3

theorem noChanges_success_witness :
    commitPushPhase envC3 = (.noChanges, [Ev.gitStatusE, Ev.gitLsTrackedE]) :=
  noChanges_success.1 envC3 rfl rfl

/-- C8: in the per-bundle loop a declined overwrite confirmation skips
only that bundle and the loop continues with the remainder, while a
forced interrupt of the confirmation prompt aborts immediately: the
remaining bundles are not processed, the whole publish ends with the
cancelled outcome, and the events of earlier iterations, including any
checkpoint commits, remain in the trace. -/
theorem confirm_decline_vs_interrupt :
    (∀ (optYes : Bool) (it : SkillItem) (rest : List SkillItem),
      isValidSkillName it.name = true →
      it.senv.targetExists = true → optYes = false → it.senv.confirmRes = CRes.no →
      processLoop optYes (it :: rest) =
        (Ev.skippedEv it :: (processLoop optYes rest).1, (processLoop optYes rest).2)) ∧
    (∀ (optYes : Bool) (it : SkillItem) (rest : List SkillItem),
      isValidSkillName it.name = true →
      it.senv.targetExists = true → optYes = false →
      it.senv.confirmRes = CRes.interrupted →
      processLoop optYes (it :: rest) = ([], some .cancelledA)) ∧
    (∀ (optYes : Bool) (pre : List SkillItem) (it : SkillItem) (rest : List SkillItem),
      (processLoop optYes pre).2 = none →
      isValidSkillName it.name = true →
      it.senv.targetExists = true → optYes = false →
      it.senv.confirmRes = CRes.interrupted →
      processLoop optYes (pre ++ it :: rest) = ((processLoop optYes pre).1, some .cancelledA)) ∧
    (∀ env : UploadEnv, isValidRepoName env.repoName = true →
      isValidGitUrl env.repoUrl = true →
      (clonePhase env).2 = true →
      (processLoop env.optYes env.skills).2 = some .cancelledA →
      uploadToRepository env =
        (.cancelled, (clonePhase env).1 ++ (processLoop env.optYes env.skills).1)) := by
  have hdecl : ∀ (optYes : Bool) (it : SkillItem),
      isValidSkillName it.name = true →
      it.senv.targetExists = true → optYes = false → it.senv.confirmRes = CRes.no →
      processSkillEv optYes it = ([Ev.skippedEv it], .skippedR) := by
    intro optYes it hv hte hoy hcr
    subst hoy
    simp [processSkillEv, hv, hte, hcr]
  have hint : ∀ (optYes : Bool) (it : SkillItem),
      isValidSkillName it.name = true →
      it.senv.targetExists = true → optYes = false →
      it.senv.confirmRes = CRes.interrupted →
      processSkillEv optYes it = ([], .abortR .cancelledA) := by
    intro optYes it hv hte hoy hcr
    subst hoy
    simp [processSkillEv, hv, hte, hcr]
  refine ⟨?_, ?_, ?_, ?_⟩
  · intro optYes it rest hv hte hoy hcr
    simp [processLoop, hdecl optYes it hv hte hoy hcr]
  · intro optYes it rest hv hte hoy hcr
    simp [processLoop, hint optYes it hv hte hoy hcr]
  · intro optYes pre it rest hpre hv hte hoy hcr
    rw [processLoop_append optYes pre (it :: rest) hpre]
    rw [show processLoop optYes (it :: rest) = ([], some .cancelledA) by
      simp [processLoop, hint optYes it hv hte hoy hcr]]
    simp
  · intro env h1 h2 h3 h4
    unfold uploadToRepository
    simp only [h1, h2, h3, h4, Bool.not_true, Bool.false_eq_true, if_false]

theorem confirm_decline_vs_interrupt_witness :
    processLoop false
      [⟨['a'], ⟨true, CRes.interrupted, false, false, false, false, true, true, true, true⟩⟩,
       ⟨['b'], ⟨false, CRes.yes, false, false, false, false, true, true, true, true⟩⟩] =
      ([], some .cancelledA) :=
  confirm_decline_vs_interrupt.2.1 false
    ⟨['a'], ⟨true, CRes.interrupted, false, false, false, false, true, true, true, true⟩⟩
    [⟨['b'], ⟨false, CRes.yes, false, false, false, false, true, true, true, true⟩⟩]
    (by decide) rfl rfl rfl

end OpenSkills
